import Mathlib

/-!
# Verification of the nanomax-analysis-utils numerical core

Shallow embedding of the numerical core of the repository:

* the mask-to-positions inverse lookup of
  `XrfWidget.updateSpectrum` (src/nmutils/gui/scanViewer/widgets/XrfWidget.py),
* the ROI-windowed signal reduction of `XrfWidget.updateMap`,
* the `fft` / `ifft` helpers and `propagateNearfield`
  (src/nmutils/utils/utils.py).

Python floats are modelled as exact rationals (ℚ) where the code only
adds, multiplies and compares, and complex field entries as ℂ.  External
library routines (numpy reductions, the pyfftw transform backend, ptypy's
nearfield propagator) are modelled by their documented mathematical
semantics; where a routine is opaque it is kept as an explicit function
parameter so the theorems quantify over every conforming backend.
-/

/-! ## numpy-style list helpers -/

/-- The numpy `ndarray.min` of a nonempty list, first element seeding a fold.
The `[]` case returns `0`; the code paths modelled here only call it on
nonempty data (`updateSpectrum` guards on `np.sum(mask)`). -/
def npMin : List ℚ → ℚ
  | [] => 0
  | x :: xs => xs.foldl min x

/-- The numpy `ndarray.max` of a nonempty list (same convention as `npMin`). -/
def npMax : List ℚ → ℚ
  | [] => 0
  | x :: xs => xs.foldl max x

/-- The mean `np.mean` of a 1D array: sum divided by length.  numpy returns NaN
on an empty slice (with a RuntimeWarning, not an exception); in ℚ the
junk value `0/0 = 0` stands in for that NaN. -/
def npMean (l : List ℚ) : ℚ := l.sum / l.length

/-- First index of the minimum of a list, as `numpy.argmin` (ties go to
the earliest index). -/
def npArgmin : List ℚ → ℕ
  | [] => 0
  | [_] => 0
  | x :: y :: rest => if x ≤ npMin (y :: rest) then 0 else npArgmin (y :: rest) + 1

theorem foldlMin_le_init (x : ℚ) (xs : List ℚ) : xs.foldl min x ≤ x := by
  induction xs generalizing x with
  | nil => exact le_refl x
  | cons y ys ih =>
    calc (y :: ys).foldl min x = ys.foldl min (min x y) := rfl
      _ ≤ min x y := ih (min x y)
      _ ≤ x := min_le_left _ _

theorem foldlMin_le_mem {a : ℚ} {xs : List ℚ} (x : ℚ) (h : a ∈ xs) :
    xs.foldl min x ≤ a := by
  induction xs generalizing x with
  | nil => cases h
  | cons y ys ih =>
    rcases List.mem_cons.mp h with rfl | h2
    · calc (a :: ys).foldl min x = ys.foldl min (min x a) := rfl
        _ ≤ min x a := foldlMin_le_init _ _
        _ ≤ a := min_le_right _ _
    · exact ih (min x y) h2

theorem foldlMin_mem (x : ℚ) (xs : List ℚ) : xs.foldl min x ∈ x :: xs := by
  induction xs generalizing x with
  | nil => simp
  | cons y ys ih =>
    have h := ih (min x y)
    have he : (y :: ys).foldl min x = ys.foldl min (min x y) := rfl
    rw [he]
    rcases List.mem_cons.mp h with h1 | h2
    · rcases min_choice x y with hc | hc
      · rw [h1, hc]; exact List.mem_cons_self _ _
      · rw [h1, hc]; exact List.mem_cons.mpr (Or.inr (List.mem_cons_self _ _))
    · exact List.mem_cons.mpr (Or.inr (List.mem_cons.mpr (Or.inr h2)))

/-- Any member of a nonempty list is bounded below by `npMin`. -/
theorem npMin_le {a : ℚ} {l : List ℚ} (h : a ∈ l) : npMin l ≤ a := by
  cases l with
  | nil => cases h
  | cons x xs =>
    rcases List.mem_cons.mp h with rfl | h2
    · exact foldlMin_le_init a xs
    · exact foldlMin_le_mem x h2

/-- The minimum of a nonempty list is attained by a member. -/
theorem npMin_mem {l : List ℚ} (h : l ≠ []) : npMin l ∈ l := by
  cases l with
  | nil => exact absurd rfl h
  | cons x xs => exact foldlMin_mem x xs

/-- The minimum of a nonempty list is below a bound iff some member is. -/
theorem npMin_lt_iff {l : List ℚ} {c : ℚ} (h : l ≠ []) :
    npMin l < c ↔ ∃ a ∈ l, a < c := by
  constructor
  · intro hlt
    exact ⟨npMin l, npMin_mem h, hlt⟩
  · rintro ⟨a, ha, hac⟩
    exact lt_of_le_of_lt (npMin_le ha) hac

theorem le_foldlMax_init (x : ℚ) (xs : List ℚ) : x ≤ xs.foldl max x := by
  induction xs generalizing x with
  | nil => exact le_refl x
  | cons y ys ih =>
    calc x ≤ max x y := le_max_left _ _
      _ ≤ ys.foldl max (max x y) := ih (max x y)
      _ = (y :: ys).foldl max x := rfl

theorem le_foldlMax_mem {a : ℚ} {xs : List ℚ} (x : ℚ) (h : a ∈ xs) :
    a ≤ xs.foldl max x := by
  induction xs generalizing x with
  | nil => cases h
  | cons y ys ih =>
    rcases List.mem_cons.mp h with rfl | h2
    · calc a ≤ max x a := le_max_right _ _
        _ ≤ ys.foldl max (max x a) := le_foldlMax_init _ _
        _ = (a :: ys).foldl max x := rfl
    · exact ih (max x y) h2

/-- Any member of a nonempty list is bounded above by `npMax`. -/
theorem le_npMax {a : ℚ} {l : List ℚ} (h : a ∈ l) : a ≤ npMax l := by
  cases l with
  | nil => cases h
  | cons x xs =>
    rcases List.mem_cons.mp h with rfl | h2
    · exact le_foldlMax_init a xs
    · exact le_foldlMax_mem x h2

/-! ## Mask-to-positions inverse lookup

Embedding of the ROI branch of `XrfWidget.updateSpectrum`
(src/nmutils/gui/scanViewer/widgets/XrfWidget.py, lines 143-155).  The
interpolated grid is given by its coordinate arrays `x` and `y` (2D,
same shape as the selection `mask`), exactly as the code receives them
from `scan.interpolatedMap`. -/

/-- Entry `a[i, j]` of a 2D array, with a default value outside bounds
(the modelled code only reads in-bounds entries). -/
def entry2 (a : List (List ℚ)) (i j : ℕ) : ℚ := (a.getD i []).getD j 0

/-- One row of `np.vstack((x[np.where(mask)], y[np.where(mask)])).T`:
the `(x, y)` pairs of one grid row where the mask is set. -/
def maskedRow (xr yr : List ℚ) (mr : List Bool) : List (ℚ × ℚ) :=
  ((xr.zip yr).zip mr).filterMap (fun pm => if pm.2 then some pm.1 else none)

/-- The array `maskedPoints`: coordinates of the grid points selected by `mask`,
row-major, as built by `np.where` on a 2D mask. -/
def maskedPoints (x y : List (List ℚ)) (mask : List (List Bool)) : List (ℚ × ℚ) :=
  (((x.zip y).zip mask).map (fun rm => maskedRow rm.1.1 rm.1.2 rm.2)).flatten

/-- The tolerance `pointSpacing2 = (x[0,1] - x[0,0])**2 + (y[0,0] - y[1,0])**2`: the
squared grid spacing used as the inclusion tolerance. -/
def pointSpacing2 (x y : List (List ℚ)) : ℚ :=
  (entry2 x 0 1 - entry2 x 0 0) ^ 2 + (entry2 y 0 0 - entry2 y 1 0) ^ 2

/-- Squared euclidean distance between two points,
`np.sum((q - p)**2)`. -/
def sqDist (p q : ℚ × ℚ) : ℚ := (q.1 - p.1) ^ 2 + (q.2 - p.2) ^ 2

/-- The quantity `dist2`: squared distance from position `p` to the nearest masked
grid point, `np.sum((maskedPoints - p)**2, axis=1).min()`. -/
def minDist2 (p : ℚ × ℚ) (pts : List (ℚ × ℚ)) : ℚ :=
  npMin (pts.map (fun q => sqDist p q))

/-- The maskedPositions loop of `updateSpectrum`: position index `i`
is kept iff the squared distance from `positions[i]` to the nearest
masked grid point is strictly below `pointSpacing2`. -/
def positionsInMask (positions : List (ℚ × ℚ)) (x y : List (List ℚ))
    (mask : List (List Bool)) : List ℕ :=
  let pts := maskedPoints x y mask
  let s2 := pointSpacing2 x y
  (List.range positions.length).filter
    (fun i => decide (minDist2 (positions.getD i (0, 0)) pts < s2))

/-- The minimum squared distance to a nonempty point set is below a
bound iff the distance to some point is. -/
theorem minDist2_lt_iff {p : ℚ × ℚ} {pts : List (ℚ × ℚ)} {c : ℚ}
    (h : pts ≠ []) :
    minDist2 p pts < c ↔ ∃ q ∈ pts, sqDist p q < c := by
  unfold minDist2
  rw [npMin_lt_iff (by simpa using h)]
  constructor
  · rintro ⟨a, ha, hac⟩
    rcases List.mem_map.mp ha with ⟨q, hq, rfl⟩
    exact ⟨q, hq, hac⟩
  · rintro ⟨q, hq, hqc⟩
    exact ⟨sqDist p q, List.mem_map.mpr ⟨q, hq, rfl⟩, hqc⟩

/-- C1: provided the mask selects at least one grid point (the guard
`np.sum(mask)` in the code), the inverse mask-to-positions operation
includes a position index exactly when that index is in range and the
squared distance from the position to the nearest masked grid point is
strictly less than the squared grid spacing `pointSpacing2`. -/
theorem positionsInMask_mem_iff
    (positions : List (ℚ × ℚ)) (x y : List (List ℚ))
    (mask : List (List Bool)) (i : ℕ)
    (hne : maskedPoints x y mask ≠ []) :
    i ∈ positionsInMask positions x y mask ↔
      i < positions.length ∧
        ∃ q ∈ maskedPoints x y mask,
          sqDist (positions.getD i (0, 0)) q < pointSpacing2 x y := by
  unfold positionsInMask
  rw [List.mem_filter, List.mem_range, decide_eq_true_eq,
    minDist2_lt_iff hne]

/-- C1 witness: a concrete 2×2 grid with one masked cell keeps position
0, which sits on the masked point. -/
theorem positionsInMask_mem_iff_witness :
    0 ∈ positionsInMask [((0 : ℚ), (0 : ℚ)), (5, 5)]
      [[0, 1], [0, 1]] [[0, 0], [1, 1]] [[true, false], [false, false]] :=
  (positionsInMask_mem_iff [((0 : ℚ), (0 : ℚ)), (5, 5)]
      [[0, 1], [0, 1]] [[0, 0], [1, 1]] [[true, false], [false, false]] 0
      (by decide)).mpr
    ⟨by decide, ⟨(0, 0), by decide, by norm_num [sqDist, entry2, pointSpacing2]⟩⟩

/-! ## ROI-windowed signal reduction

Embedding of the ROI branch of `XrfWidget.updateMap`
(src/nmutils/gui/scanViewer/widgets/XrfWidget.py, lines 103-109):

    upper = (np.abs(xvector - upperval)).argmin()
    lower = (np.abs(xvector - lowerval)).argmin()
    average = np.mean(self.scan.data['1d'][:, lower:upper], axis=1)
-/

/-- Absolute value `np.abs` of a scalar. -/
def npAbs (v : ℚ) : ℚ := if v < 0 then -v else v

/-- numpy basic slice `row[lower:upper]`: half-open, clamped at the end,
empty when `upper ≤ lower`. -/
def npSlice (l : List ℚ) (lower upper : ℕ) : List ℚ :=
  (l.drop lower).take (upper - lower)

/-- The per-position ROI reduction of `updateMap`: locate the axis
indices nearest `upperval` and `lowerval`, then take the mean of each
position's row over the half-open window `[lower, upper)`. -/
def roiReduce (data : List (List ℚ)) (xvector : List ℚ)
    (lowerval upperval : ℚ) : List ℚ :=
  let upper := npArgmin (xvector.map (fun v => npAbs (v - upperval)))
  let lower := npArgmin (xvector.map (fun v => npAbs (v - lowerval)))
  data.map (fun row => npMean (npSlice row lower upper))

/-- C2 counterexample: with `xvector = [0, 10]`, data `[[5, 7]]` and the
collapsed range `[0, 0]`, both located indices are `0`, yet the result
is the mean of the *empty* slice `row[0:0]` (NaN in numpy, the junk
value `npMean [] = 0` here) and not the single-column mean
`npMean [5] = 5` that the claim promises. -/
theorem roiReduce_collapse_counterexample :
    npArgmin ([(0 : ℚ), 10].map (fun v => npAbs (v - 0))) = 0 ∧
    roiReduce [[(5 : ℚ), 7]] [0, 10] 0 0 = [npMean []] ∧
    roiReduce [[(5 : ℚ), 7]] [0, 10] 0 0 ≠ [npMean [(5 : ℚ)]] := by
  refine ⟨by norm_num [npArgmin, npMin, npAbs], ?_, ?_⟩
  · norm_num [roiReduce, npArgmin, npMin, npAbs, npSlice]
  · norm_num [roiReduce, npArgmin, npMin, npAbs, npSlice, npMean]

/-- C2 (amended): when the two located axis indices coincide, the
half-open window `[lower, upper)` is empty, so the result for every
position is the mean of an empty slice (NaN plus a RuntimeWarning in
numpy, never the single-column mean, and no exception is raised). -/
theorem roiReduce_collapse
    (data : List (List ℚ)) (xvector : List ℚ) (lowerval upperval : ℚ)
    (h : npArgmin (xvector.map (fun v => npAbs (v - lowerval))) =
      npArgmin (xvector.map (fun v => npAbs (v - upperval)))) :
    roiReduce data xvector lowerval upperval =
      data.map (fun _ => npMean []) := by
  unfold roiReduce npSlice
  rw [h]
  simp

/-- C2 witness: concrete two-position data with a collapsed window. -/
theorem roiReduce_collapse_witness :
    roiReduce [[(1 : ℚ), 2], [3, 4]] [0, 10] 0 0 =
      List.map (fun _ => npMean []) [[(1 : ℚ), 2], [3, 4]] :=
  roiReduce_collapse [[(1 : ℚ), 2], [3, 4]] [0, 10] 0 0
    (by norm_num [npArgmin, npMin, npAbs])

/-! ## Near-field propagation wrapper

Embedding of `propagateNearfield` (src/nmutils/utils/utils.py, lines
147-197).  The function

* asserts that the wavefront array is N-by-N (raising
  `RuntimeError("Wavefront array must be N x N")` otherwise — the
  failure kind the spec names `ShapeError`),
* promotes a single scalar distance to a one-element list (the
  `len(distances)` TypeError handler),
* configures one ptypy `Geo` propagator from the fixed geometry
  (energy, pixel size, array side, `distances[0]` — an IndexError on an
  empty sequence), and
* for each distance `distances[i]` sets `geo.p.distance`, calls
  `geo.update()` and stores `geo.propagator.fw(A)` in slice `i` of a
  preallocated `len(distances) × N × N` array.

ptypy is an external dependency, so its nearfield propagator is kept as
an explicit function argument `fw` of the fixed geometry and the current
distance: per ptypy's documentation (and the spec), `geo.update()`
rebuilds the transfer constants from the current parameters alone, so
one evaluation is a pure function of (energy, psize, N, distance). -/

/-- A numpy ndarray as the wrapper manipulates it: an explicit `shape`
attribute plus the data payload.  The wrapper inspects only the shape
and hands the payload to the backend unchanged. -/
structure NDArray (α : Type) where
  shape : List ℕ
  data : α
deriving DecidableEq

/-- The 2D complex payload of a wavefront array. -/
abbrev ComplexField := List (List ℂ)

/-- The distances argument: a sequence, or a single scalar (which the
code promotes to a one-element list). -/
inductive Distances where
  | scalar (d : ℚ)
  | seq (ds : List ℚ)

/-- The scalar-to-list promotion performed by the `len(distances)`
TypeError handler. -/
def promote : Distances → List ℚ
  | .scalar d => [d]
  | .seq ds => ds

/-- Failure kinds of `propagateNearfield`: the RuntimeError raised for a
non-N-by-N wavefront (the spec's `ShapeError`), and the IndexError
raised by `distances[0]` on an empty sequence. -/
inductive PropFailure where
  | shapeError
  | indexError
deriving DecidableEq

/-- The squareness test of the two asserts:
`len(A.shape) == 2 and A.shape[0] == A.shape[1]`. -/
def squareShape : List ℕ → Bool
  | [r, c] => r == c
  | _ => false

/-- A backend nearfield propagator: a function of the fixed geometry
(energy, pixel size, array side) and the current distance, applied to a
wavefront array. -/
def Propagator (α : Type) : Type :=
  ℚ → ℚ → ℕ → ℚ → NDArray α → NDArray α

/-- The function `propagateNearfield(A, psize, distances, energy)` with the backend
propagator `fw` explicit: shape assert, scalar promotion, then one
backend evaluation per distance, in input order. -/
def propagateNearfield {α : Type} (fw : Propagator α) (A : NDArray α)
    (psize : ℚ) (distances : Distances) (energy : ℚ) :
    Except PropFailure (List (NDArray α)) :=
  if squareShape A.shape then
    match promote distances with
    | [] => .error .indexError
    | ds => .ok (ds.map (fun d => fw energy psize A.shape.headI d A))
  else
    .error .shapeError

/-- The test `squareShape` accepts exactly the shapes `[n, n]`. -/
theorem squareShape_eq_true_iff (s : List ℕ) :
    squareShape s = true ↔ ∃ n, s = [n, n] := by
  constructor
  · intro h
    match s, h with
    | [r, c], h =>
      have : r = c := by simpa [squareShape] using h
      exact ⟨r, by rw [this]⟩
  · rintro ⟨n, rfl⟩
    simp [squareShape]

/-- C3: the propagate operation fails with the shape error for every
array whose shape is not of the form `[n, n]` (non-square 2D arrays and
arrays of any other number of dimensions alike), and never fails with
the shape error on an `[n, n]` array. -/
theorem propagateNearfield_shape_check :
    (∀ (fw : Propagator ComplexField) (A : NDArray ComplexField)
        (psize : ℚ) (distances : Distances) (energy : ℚ),
        (∀ n, A.shape ≠ [n, n]) →
        propagateNearfield fw A psize distances energy =
          .error .shapeError) ∧
    (∀ (fw : Propagator ComplexField) (A : NDArray ComplexField)
        (psize : ℚ) (distances : Distances) (energy : ℚ) (n : ℕ),
        A.shape = [n, n] →
        propagateNearfield fw A psize distances energy ≠
          .error .shapeError) := by
  constructor
  · intro fw A psize distances energy h
    have hsq : squareShape A.shape = false := by
      rcases hb : squareShape A.shape with _ | _
      · rfl
      · rcases (squareShape_eq_true_iff A.shape).mp hb with ⟨n, hn⟩
        exact absurd hn (h n)
    unfold propagateNearfield
    rw [hsq]
    rfl
  · intro fw A psize distances energy n hA
    have hsq : squareShape A.shape = true := by
      rw [hA]; simp [squareShape]
    unfold propagateNearfield
    rw [hsq]
    cases promote distances with
    | nil => simp
    | cons d ds => simp

/-- C3 witness: a 2×3 shape is rejected with the shape error, a 1D
shape is rejected with the shape error, and a 2×2 shape is not. -/
theorem propagateNearfield_shape_check_witness :
    propagateNearfield (fun _ _ _ _ B => B)
        (⟨[2, 3], [[1, 0, 0], [0, 1, 0]]⟩ : NDArray ComplexField)
        1 (.seq [1]) 1 = .error .shapeError ∧
    propagateNearfield (fun _ _ _ _ B => B)
        (⟨[4], [[1, 0, 0, 0]]⟩ : NDArray ComplexField)
        1 (.seq [1]) 1 = .error .shapeError ∧
    propagateNearfield (fun _ _ _ _ B => B)
        (⟨[2, 2], [[1, 0], [0, 1]]⟩ : NDArray ComplexField)
        1 (.seq [1]) 1 ≠ .error .shapeError :=
  ⟨propagateNearfield_shape_check.1 (fun _ _ _ _ B => B)
      (⟨[2, 3], [[1, 0, 0], [0, 1, 0]]⟩ : NDArray ComplexField) 1 (.seq [1]) 1
      (by intro n h; simp at h; omega),
   propagateNearfield_shape_check.1 (fun _ _ _ _ B => B)
      (⟨[4], [[1, 0, 0, 0]]⟩ : NDArray ComplexField) 1 (.seq [1]) 1
      (by intro n h; simp at h),
   propagateNearfield_shape_check.2 (fun _ _ _ _ B => B)
      (⟨[2, 2], [[1, 0], [0, 1]]⟩ : NDArray ComplexField) 1 (.seq [1]) 1 2 rfl⟩

/-- C4: for a square N-by-N field and a non-empty list of k distances,
the wrapper returns an ordered list of exactly k fields; the field at
index i is one backend evaluation of the input at the distance at input
index i, and (whenever the backend preserves array shape, as ptypy's
nearfield propagator does) every returned field again has shape N-by-N. -/
theorem propagateNearfield_shape_and_order
    (fw : Propagator ComplexField)
    (hfw : ∀ e p m d B, (fw e p m d B).shape = B.shape)
    (A : NDArray ComplexField) (psize energy : ℚ) (n : ℕ)
    (hA : A.shape = [n, n]) (ds : List ℚ) (hne : ds ≠ []) :
    ∃ l, propagateNearfield fw A psize (.seq ds) energy = .ok l ∧
      l.length = ds.length ∧
      (∀ i d, ds.get? i = some d →
        l.get? i = some (fw energy psize n d A)) ∧
      (∀ B ∈ l, B.shape = [n, n]) := by
  have hsq : squareShape A.shape = true := by rw [hA]; simp [squareShape]
  have hhead : A.shape.headI = n := by rw [hA]; rfl
  refine ⟨ds.map (fun d => fw energy psize n d A), ?_, ?_, ?_, ?_⟩
  · unfold propagateNearfield
    rw [hsq]
    cases ds with
    | nil => exact absurd rfl hne
    | cons d rest => simp [promote, hhead]
  · exact List.length_map _ _
  · intro i d hd
    rw [List.get?_map, hd]
    rfl
  · intro B hB
    rcases List.mem_map.mp hB with ⟨d, _, rfl⟩
    rw [hfw, hA]

/-- C4 witness: two distances on a concrete 2×2 field with a
shape-preserving backend. -/
theorem propagateNearfield_shape_and_order_witness :
    ∃ l, propagateNearfield
        (fun _ _ _ _ B => ⟨B.shape, B.data⟩ : Propagator ComplexField)
        (⟨[2, 2], [[1, 0], [0, 1]]⟩ : NDArray ComplexField)
        1 (.seq [3, 7]) 10 = .ok l ∧
      l.length = 2 ∧
      (∀ i d, [(3 : ℚ), 7].get? i = some d →
        l.get? i = some ((fun _ _ _ _ B => ⟨B.shape, B.data⟩ : Propagator ComplexField)
          10 1 2 d ⟨[2, 2], [[1, 0], [0, 1]]⟩)) ∧
      (∀ B ∈ l, B.shape = [2, 2]) :=
  propagateNearfield_shape_and_order
    (fun _ _ _ _ B => ⟨B.shape, B.data⟩) (fun _ _ _ _ _ => rfl)
    (⟨[2, 2], [[1, 0], [0, 1]]⟩ : NDArray ComplexField) 1 10 2 rfl
    [3, 7] (by decide)

/-- C5: each distance in the list is evaluated independently: the two
results of a two-distance call are exactly the single results of the
corresponding one-distance calls. -/
theorem propagateNearfield_distances_independent
    (fw : Propagator ComplexField) (A : NDArray ComplexField)
    (psize energy d1 d2 : ℚ) (hA : squareShape A.shape = true) :
    ∃ r1 r2,
      propagateNearfield fw A psize (.seq [d1]) energy = .ok [r1] ∧
      propagateNearfield fw A psize (.seq [d2]) energy = .ok [r2] ∧
      propagateNearfield fw A psize (.seq [d1, d2]) energy = .ok [r1, r2] := by
  refine ⟨fw energy psize A.shape.headI d1 A,
    fw energy psize A.shape.headI d2 A, ?_, ?_, ?_⟩ <;>
    · unfold propagateNearfield
      rw [hA]
      rfl

/-- C5 witness: a backend whose output depends on the distance, on a
concrete 1×1 field. -/
theorem propagateNearfield_distances_independent_witness :
    ∃ r1 r2,
      propagateNearfield
          (fun _ _ _ d B => ⟨B.shape, [[Complex.I * (d : ℝ)]]⟩ : Propagator ComplexField)
          (⟨[1, 1], [[1]]⟩ : NDArray ComplexField) 1 (.seq [2]) 10 = .ok [r1] ∧
      propagateNearfield
          (fun _ _ _ d B => ⟨B.shape, [[Complex.I * (d : ℝ)]]⟩ : Propagator ComplexField)
          (⟨[1, 1], [[1]]⟩ : NDArray ComplexField) 1 (.seq [5]) 10 = .ok [r2] ∧
      propagateNearfield
          (fun _ _ _ d B => ⟨B.shape, [[Complex.I * (d : ℝ)]]⟩ : Propagator ComplexField)
          (⟨[1, 1], [[1]]⟩ : NDArray ComplexField) 1 (.seq [2, 5]) 10 = .ok [r1, r2] :=
  propagateNearfield_distances_independent
    (fun _ _ _ d B => ⟨B.shape, [[Complex.I * (d : ℝ)]]⟩)
    (⟨[1, 1], [[1]]⟩ : NDArray ComplexField) 1 10 2 5 (by decide)

/-- C6 counterexample: a call with pixel size 0 and energy −1 on a valid
square field succeeds with a normal result; it does not fail at all, in
particular not with any parameter error (no such check exists in the
code). -/
theorem propagateNearfield_no_parameter_check_counterexample :
    propagateNearfield (fun _ _ _ _ B => B)
        (⟨[1, 1], [[1]]⟩ : NDArray ComplexField) 0 (.seq [1]) (-1) =
      .ok [(⟨[1, 1], [[1]]⟩ : NDArray ComplexField)] := rfl

/-- C6 (amended): the wrapper performs no validation of energy or pixel
size: with a square field and a nonempty distance list, a call with
non-positive energy or pixel size succeeds and simply hands the invalid
values to the backend (so no defaults are substituted either); the only
failures are the shape assert and the empty-sequence IndexError. -/
theorem propagateNearfield_no_parameter_check
    (fw : Propagator ComplexField) (A : NDArray ComplexField)
    (psize energy : ℚ) (distances : Distances)
    (hbad : energy ≤ 0 ∨ psize ≤ 0)
    (hA : squareShape A.shape = true)
    (hne : promote distances ≠ []) :
    propagateNearfield fw A psize distances energy =
      .ok ((promote distances).map
        (fun d => fw energy psize A.shape.headI d A)) := by
  unfold propagateNearfield
  rw [hA]
  cases h : promote distances with
  | nil => exact absurd h hne
  | cons d rest => rfl

/-- C6 witness: scalar distance, zero energy, negative pixel size. -/
theorem propagateNearfield_no_parameter_check_witness :
    propagateNearfield (fun _ _ _ _ B => B)
        (⟨[2, 2], [[1, 0], [0, 1]]⟩ : NDArray ComplexField)
        (-1) (.scalar 2) 0 =
      .ok (List.map (fun _ => (⟨[2, 2], [[1, 0], [0, 1]]⟩ : NDArray ComplexField)) [(2 : ℚ)]) :=
  propagateNearfield_no_parameter_check (fun _ _ _ _ B => B)
    (⟨[2, 2], [[1, 0], [0, 1]]⟩ : NDArray ComplexField) (-1) 0 (.scalar 2)
    (Or.inl le_rfl) (by decide) (by simp [promote])

/-- C10: a single scalar distance d is handled exactly as the
one-element sequence [d]; in particular, on a square field the call
succeeds and returns the one-element list containing the backend
evaluation at d. -/
theorem propagateNearfield_scalar_promotion
    (fw : Propagator ComplexField) (A : NDArray ComplexField)
    (psize energy d : ℚ) :
    propagateNearfield fw A psize (.scalar d) energy =
      propagateNearfield fw A psize (.seq [d]) energy ∧
    (squareShape A.shape = true →
      propagateNearfield fw A psize (.scalar d) energy =
        .ok [fw energy psize A.shape.headI d A]) := by
  constructor
  · rfl
  · intro hA
    unfold propagateNearfield
    rw [hA]
    rfl

/-- C10 witness: scalar call on a concrete 2×2 field equals the
one-element-sequence call and succeeds. -/
theorem propagateNearfield_scalar_promotion_witness :
    propagateNearfield (fun _ _ _ _ B => B)
        (⟨[2, 2], [[1, 0], [0, 1]]⟩ : NDArray ComplexField) 1 (.scalar 3) 10 =
      propagateNearfield (fun _ _ _ _ B => B)
        (⟨[2, 2], [[1, 0], [0, 1]]⟩ : NDArray ComplexField) 1 (.seq [3]) 10 ∧
    propagateNearfield (fun _ _ _ _ B => B)
        (⟨[2, 2], [[1, 0], [0, 1]]⟩ : NDArray ComplexField) 1 (.scalar 3) 10 =
      .ok [(⟨[2, 2], [[1, 0], [0, 1]]⟩ : NDArray ComplexField)] :=
  ⟨(propagateNearfield_scalar_promotion (fun _ _ _ _ B => B)
      (⟨[2, 2], [[1, 0], [0, 1]]⟩ : NDArray ComplexField) 1 10 3).1,
   (propagateNearfield_scalar_promotion (fun _ _ _ _ B => B)
      (⟨[2, 2], [[1, 0], [0, 1]]⟩ : NDArray ComplexField) 1 10 3).2 (by decide)⟩

/-! ## Centered FFT helpers

Embedding of the `fft` and `ifft` helpers
(src/nmutils/utils/utils.py, lines 90-100):

    def fft(a):  a = pyfftw...fftn(a); a = np.fft.fftshift(a); return a
    def ifft(a): a = np.fft.ifftshift(a); a = pyfftw...ifftn(a); return a

`np.fft.fftshift` rolls every axis right by `n // 2` and
`np.fft.ifftshift` rolls every axis left by `n // 2`.  The pyfftw
transforms are an external backend; they enter as the function
parameters `F` and `Finv`. -/

/-- Left roll `np.roll(l, -k)` for `k ≤ len(l)`: rotate left by `k`. -/
def rollLeft {α : Type} (l : List α) (k : ℕ) : List α := l.drop k ++ l.take k

/-- Right roll `np.roll(l, k)` for `k ≤ len(l)`: rotate right by `k`. -/
def rollRight {α : Type} (l : List α) (k : ℕ) : List α :=
  l.drop (l.length - k) ++ l.take (l.length - k)

/-- The shift `np.fft.fftshift` along one axis. -/
def fftshift1 {α : Type} (l : List α) : List α := rollRight l (l.length / 2)

/-- The shift `np.fft.ifftshift` along one axis. -/
def ifftshift1 {α : Type} (l : List α) : List α := rollLeft l (l.length / 2)

/-- The shift `np.fft.fftshift` of a 2D array: shift the rows (axis 0) and each
row (axis 1). -/
def fftshift2 {α : Type} (a : List (List α)) : List (List α) :=
  (fftshift1 a).map fftshift1

/-- The shift `np.fft.ifftshift` of a 2D array. -/
def ifftshift2 {α : Type} (a : List (List α)) : List (List α) :=
  (ifftshift1 a).map ifftshift1

theorem length_fftshift1 {α : Type} (l : List α) :
    (fftshift1 l).length = l.length := by
  simp only [fftshift1, rollRight, List.length_append, List.length_drop,
    List.length_take]
  omega

theorem length_ifftshift1 {α : Type} (l : List α) :
    (ifftshift1 l).length = l.length := by
  simp only [ifftshift1, rollLeft, List.length_append, List.length_drop,
    List.length_take]
  omega

/-- The two shifts cancel: rolling right then left by `n // 2`. -/
theorem ifftshift1_fftshift1 {α : Type} (l : List α) :
    ifftshift1 (fftshift1 l) = l := by
  unfold ifftshift1 rollLeft
  rw [length_fftshift1]
  unfold fftshift1 rollRight
  have h1 : (l.drop (l.length - l.length / 2)).length = l.length / 2 := by
    rw [List.length_drop]; omega
  rw [List.drop_left' h1, List.take_left' h1]
  exact List.take_append_drop _ l

/-- The two shifts cancel in the other order as well. -/
theorem fftshift1_ifftshift1 {α : Type} (l : List α) :
    fftshift1 (ifftshift1 l) = l := by
  unfold fftshift1 rollRight
  rw [length_ifftshift1]
  unfold ifftshift1 rollLeft
  have h1 : (l.drop (l.length / 2)).length = l.length - l.length / 2 := by
    rw [List.length_drop]
  rw [List.drop_left' h1, List.take_left' h1]
  exact List.take_append_drop _ l

theorem ifftshift1_map {α β : Type} (f : α → β) (l : List α) :
    ifftshift1 (l.map f) = (ifftshift1 l).map f := by
  simp [ifftshift1, rollLeft]

theorem fftshift1_map {α β : Type} (f : α → β) (l : List α) :
    fftshift1 (l.map f) = (fftshift1 l).map f := by
  simp [fftshift1, rollRight]

/-- Cancellation of the 2D shifts, inverse after forward. -/
theorem ifftshift2_fftshift2 {α : Type} (a : List (List α)) :
    ifftshift2 (fftshift2 a) = a := by
  unfold ifftshift2 fftshift2
  rw [ifftshift1_map, ifftshift1_fftshift1, List.map_map]
  simp [Function.comp_def, ifftshift1_fftshift1]

/-- Cancellation of the 2D shifts, forward after inverse. -/
theorem fftshift2_ifftshift2 {α : Type} (a : List (List α)) :
    fftshift2 (ifftshift2 a) = a := by
  unfold ifftshift2 fftshift2
  rw [fftshift1_map, fftshift1_ifftshift1, List.map_map]
  simp [Function.comp_def, fftshift1_ifftshift1]

/-- The helper `fft`: forward transform backend `F` (pyfftw, external),
then the centering shift. -/
def fft (F : ComplexField → ComplexField) (a : ComplexField) : ComplexField :=
  fftshift2 (F a)

/-- The helper `ifft`: inverse centering shift, then the inverse
transform backend `Finv`. -/
def ifft (Finv : ComplexField → ComplexField) (a : ComplexField) : ComplexField :=
  Finv (ifftshift2 a)

/-- C8: the helpers shift after the forward transform and unshift before
the inverse transform, so for every inverse-consistent transform backend
(pyfftw's `ifftn∘fftn = id`) and every 2D complex array `a`,
`ifft(fft(a)) = a`. -/
theorem ifft_fft_id (F Finv : ComplexField → ComplexField)
    (hinv : ∀ a, Finv (F a) = a) (a : ComplexField) :
    ifft Finv (fft F a) = a := by
  unfold fft ifft
  rw [ifftshift2_fftshift2, hinv]

/-- C8 witness: identity backend on a concrete 2×3 array (odd row
length, so the one-axis shifts are genuinely asymmetric halves). -/
theorem ifft_fft_id_witness :
    ifft id (fft id [[(1 : ℂ), 2, 3], [4, 5, 6]]) = [[(1 : ℂ), 2, 3], [4, 5, 6]] :=
  ifft_fft_id id id (fun _ => rfl) [[(1 : ℂ), 2, 3], [4, 5, 6]]

/-! ## Near-field round trip

Modelled from the spec: ptypy's nearfield propagator itself is an
external dependency (only wrapped by `propagateNearfield`), and the spec
describes one evaluation as a transfer-function application — centered
forward transform, pointwise multiplication by a distance-dependent
unimodular Fresnel kernel, centered inverse transform.  The kernel is
kept as a function parameter `K`; its defining Fresnel property
`K(-d) · K(d) = exp(-iφ) · exp(iφ) = 1` is the hypothesis of the
round-trip theorem (exact arithmetic stands in for the claim's
floating-point tolerance). -/

/-- Pointwise multiplication of a row by kernel entries `f j`, `f (j+1)`,
…: `(K * a)[i]` along one row. -/
def kernelMulRow (f : ℕ → ℂ) : ℕ → List ℂ → List ℂ
  | _, [] => []
  | j, v :: vs => f j * v :: kernelMulRow f (j + 1) vs

/-- Pointwise multiplication of a 2D array by the kernel `K i j`. -/
def kernelMul (K : ℕ → ℕ → ℂ) : ℕ → ComplexField → ComplexField
  | _, [] => []
  | i, r :: rs => kernelMulRow (K i) 0 r :: kernelMul K (i + 1) rs

theorem kernelMulRow_inv (f g : ℕ → ℂ) (h : ∀ j, f j * g j = 1)
    (r : List ℂ) : ∀ j, kernelMulRow f j (kernelMulRow g j r) = r := by
  induction r with
  | nil => intro j; rfl
  | cons v vs ih =>
    intro j
    simp only [kernelMulRow]
    rw [ih (j + 1), ← mul_assoc, h j, one_mul]

theorem kernelMul_inv (K1 K2 : ℕ → ℕ → ℂ) (h : ∀ i j, K1 i j * K2 i j = 1)
    (a : ComplexField) : ∀ i, kernelMul K1 i (kernelMul K2 i a) = a := by
  induction a with
  | nil => intro i; rfl
  | cons r rs ih =>
    intro i
    simp only [kernelMul]
    rw [ih (i + 1), kernelMulRow_inv (K1 i) (K2 i) (h i) r 0]

/-- Modelled from the spec: one nearfield propagation step
(`geo.propagator.fw`), as a centered transfer-function application with
the repository's `fft`/`ifft` helpers: `ifft(K(d) * fft(a))`. -/
def transferPropagate (F Finv : ComplexField → ComplexField)
    (K : ℚ → ℕ → ℕ → ℂ) (d : ℚ) (a : ComplexField) : ComplexField :=
  ifft Finv (kernelMul (K d) 0 (fft F a))

/-- The nearfield step at distance −d undoes the step at distance d,
for an inverse-consistent transform backend and a kernel with the
Fresnel inverse property. -/
theorem transferPropagate_roundtrip (F Finv : ComplexField → ComplexField)
    (K : ℚ → ℕ → ℕ → ℂ)
    (hinv1 : ∀ a, Finv (F a) = a) (hinv2 : ∀ a, F (Finv a) = a)
    (hK : ∀ d i j, K (-d) i j * K d i j = 1) (d : ℚ) (a : ComplexField) :
    transferPropagate F Finv K (-d) (transferPropagate F Finv K d a) = a := by
  unfold transferPropagate fft ifft
  rw [hinv2, fftshift2_ifftshift2, kernelMul_inv (K (-d)) (K d) (hK d),
    ifftshift2_fftshift2, hinv1]

/-- C9: through `propagateNearfield`, propagating a square field by
distance d and then propagating the result by −d returns the original
field exactly (Fresnel propagation is unitary: the backend transform
pair inverts and the kernels at d and −d are pointwise inverse). -/
theorem propagateNearfield_roundtrip
    (F Finv : ComplexField → ComplexField) (K : ℚ → ℕ → ℕ → ℂ)
    (hinv1 : ∀ a, Finv (F a) = a) (hinv2 : ∀ a, F (Finv a) = a)
    (hK : ∀ d i j, K (-d) i j * K d i j = 1)
    (A : NDArray ComplexField) (n : ℕ) (hA : A.shape = [n, n])
    (psize energy d : ℚ) :
    ∃ B, propagateNearfield
        (fun _ _ _ δ C => ⟨C.shape, transferPropagate F Finv K δ C.data⟩)
        A psize (.scalar d) energy = .ok [B] ∧
      propagateNearfield
        (fun _ _ _ δ C => ⟨C.shape, transferPropagate F Finv K δ C.data⟩)
        B psize (.scalar (-d)) energy = .ok [A] := by
  have hsq : squareShape A.shape = true := by rw [hA]; simp [squareShape]
  refine ⟨⟨A.shape, transferPropagate F Finv K d A.data⟩, ?_, ?_⟩
  · unfold propagateNearfield
    rw [hsq]
    rfl
  · unfold propagateNearfield
    rw [show (⟨A.shape, transferPropagate F Finv K d A.data⟩ :
        NDArray ComplexField).shape = A.shape from rfl, hsq]
    have hdata : transferPropagate F Finv K (-d)
        (transferPropagate F Finv K d A.data) = A.data :=
      transferPropagate_roundtrip F Finv K hinv1 hinv2 hK d A.data
    simp [promote, hdata]

/-- C9 witness: identity backend and constant-1 kernel on a concrete
1×1 field at distance 3. -/
theorem propagateNearfield_roundtrip_witness :
    ∃ B, propagateNearfield
        (fun _ _ _ δ C => ⟨C.shape,
          transferPropagate id id (fun _ _ _ => 1) δ C.data⟩)
        (⟨[1, 1], [[Complex.I]]⟩ : NDArray ComplexField) 1 (.scalar 3) 10 = .ok [B] ∧
      propagateNearfield
        (fun _ _ _ δ C => ⟨C.shape,
          transferPropagate id id (fun _ _ _ => 1) δ C.data⟩)
        B 1 (.scalar (-3)) 10 =
        .ok [(⟨[1, 1], [[Complex.I]]⟩ : NDArray ComplexField)] :=
  propagateNearfield_roundtrip id id (fun _ _ _ => 1)
    (fun _ => rfl) (fun _ => rfl) (fun _ _ _ => one_mul 1)
    (⟨[1, 1], [[Complex.I]]⟩ : NDArray ComplexField) 1 rfl 1 10 3

/-! ## Interpolated grid covering the scan positions

Modelled from the spec: `Scan.interpolatedMap` belongs to the nmutils
core package, which is not under src/ — `XrfWidget` only calls it.  Per
the spec it "builds a bounding regular grid covering the convex extent
of `positions`" at a spacing "derived from the characteristic
nearest-neighbor spacing of `positions` … divided by `oversampling`",
with origin 'ul' (row 0 at the top, y decreasing with row index).  The
spacing value itself involves a square root of summed squares, so the
positive per-axis spacings `sx`, `sy` are kept as parameters: every
property below holds for any positive spacing. -/

/-- The x coordinates of the scan positions. -/
def xCoords (ps : List (ℚ × ℚ)) : List ℚ := ps.map Prod.fst

/-- The y coordinates of the scan positions. -/
def yCoords (ps : List (ℚ × ℚ)) : List ℚ := ps.map Prod.snd

/-- Modelled from the spec: number of x grid steps covering the extent
`[xmin, xmax]` at spacing `sx`. -/
def nStepsX (ps : List (ℚ × ℚ)) (sx : ℚ) : ℕ :=
  Nat.ceil ((npMax (xCoords ps) - npMin (xCoords ps)) / sx)

/-- Modelled from the spec: number of y grid steps covering the extent
`[ymin, ymax]` at spacing `sy`. -/
def nStepsY (ps : List (ℚ × ℚ)) (sy : ℚ) : ℕ :=
  Nat.ceil ((npMax (yCoords ps) - npMin (yCoords ps)) / sy)

/-- Modelled from the spec: the x coordinate of grid column `j`. -/
def gridXVal (ps : List (ℚ × ℚ)) (sx : ℚ) (j : ℕ) : ℚ :=
  npMin (xCoords ps) + (j : ℚ) * sx

/-- Modelled from the spec: the y coordinate of grid row `i`
(origin 'ul': y decreases with the row index). -/
def gridYVal (ps : List (ℚ × ℚ)) (sy : ℚ) (i : ℕ) : ℚ :=
  npMax (yCoords ps) - (i : ℚ) * sy

/-- One row of the x coordinate array: `xmin, xmin + sx, …` across the
extent. -/
def gridXRow (ps : List (ℚ × ℚ)) (sx : ℚ) : List ℚ :=
  (List.range (nStepsX ps sx + 1)).map (gridXVal ps sx)

/-- Modelled from the spec: the x coordinate array of the interpolated
grid — every row is `gridXRow`. -/
def interpGridX (ps : List (ℚ × ℚ)) (sx sy : ℚ) : List (List ℚ) :=
  (List.range (nStepsY ps sy + 1)).map (fun _ => gridXRow ps sx)

/-- Modelled from the spec: the y coordinate array of the interpolated
grid — row `i` is constant `gridYVal i`. -/
def interpGridY (ps : List (ℚ × ℚ)) (sx sy : ℚ) : List (List ℚ) :=
  (List.range (nStepsY ps sy + 1)).map
    (fun i => (List.range (nStepsX ps sx + 1)).map (fun _ => gridYVal ps sy i))

/-- An all-true selection mask of the grid's shape. -/
def fullMask (ps : List (ℚ × ℚ)) (sx sy : ℚ) : List (List Bool) :=
  List.replicate (nStepsY ps sy + 1) (List.replicate (nStepsX ps sx + 1) true)

theorem getD_map_range {β : Type} {i n : ℕ} (f : ℕ → β) (d : β) (h : i < n) :
    ((List.range n).map f).getD i d = f i := by
  rw [List.getD_eq_getElem?_getD]
  simp [List.getElem?_map, List.getElem?_range h]

theorem getD_mem_of_lt {β : Type} {l : List β} {i : ℕ} (d : β)
    (h : i < l.length) : l.getD i d ∈ l := by
  rw [List.getD_eq_getElem l d h]
  exact List.getElem_mem h

/-- An all-true mask row keeps every grid point of the row. -/
theorem maskedRow_true : ∀ (xr yr : List ℚ), yr.length = xr.length →
    maskedRow xr yr (List.replicate xr.length true) = xr.zip yr := by
  intro xr
  induction xr with
  | nil => intro yr h; rfl
  | cons a xr2 ih =>
    intro yr h
    cases yr with
    | nil => simp at h
    | cons b yr2 =>
      have h2 : yr2.length = xr2.length := by simpa using h
      have step : maskedRow (a :: xr2) (b :: yr2)
          (List.replicate (a :: xr2).length true) =
          (a, b) :: maskedRow xr2 yr2 (List.replicate xr2.length true) := by
        simp [maskedRow, List.replicate_succ]
      rw [step, ih yr2 h2]
      rfl

/-- Every grid point is a masked point under the all-true mask. -/
theorem mem_maskedPoints_full (ps : List (ℚ × ℚ)) (sx sy : ℚ) {i j : ℕ}
    (hi : i < nStepsY ps sy + 1) (hj : j < nStepsX ps sx + 1) :
    (gridXVal ps sx j, gridYVal ps sy i) ∈
      maskedPoints (interpGridX ps sx sy) (interpGridY ps sx sy)
        (fullMask ps sx sy) := by
  unfold maskedPoints interpGridX interpGridY fullMask
  have hrep : (List.range (nStepsY ps sy + 1)).map
      (fun _ => List.replicate (nStepsX ps sx + 1) true) =
      List.replicate (nStepsY ps sy + 1)
        (List.replicate (nStepsX ps sx + 1) true) := by
    have h := List.map_const (List.range (nStepsY ps sy + 1))
      (List.replicate (nStepsX ps sx + 1) true)
    rwa [List.length_range] at h
  rw [← hrep, List.zip_map', List.zip_map', List.map_map]
  apply List.mem_flatten.mpr
  refine ⟨(gridXRow ps sx).zip
    ((List.range (nStepsX ps sx + 1)).map (fun _ => gridYVal ps sy i)), ?_, ?_⟩
  · apply List.mem_map.mpr
    refine ⟨i, List.mem_range.mpr hi, ?_⟩
    show maskedRow (gridXRow ps sx)
      ((List.range (nStepsX ps sx + 1)).map (fun _ => gridYVal ps sy i))
      (List.replicate (nStepsX ps sx + 1) true) = _
    have hxlen : (gridXRow ps sx).length = nStepsX ps sx + 1 := by
      rw [gridXRow, List.length_map, List.length_range]
    rw [← hxlen]
    apply maskedRow_true
    rw [hxlen, List.length_map, List.length_range]
  · rw [gridXRow, List.zip_map']
    exact List.mem_map.mpr ⟨j, List.mem_range.mpr hj, rfl⟩

theorem entry2_interpGridX (ps : List (ℚ × ℚ)) (sx sy : ℚ) {i j : ℕ}
    (hi : i < nStepsY ps sy + 1) (hj : j < nStepsX ps sx + 1) :
    entry2 (interpGridX ps sx sy) i j = gridXVal ps sx j := by
  unfold entry2 interpGridX gridXRow
  rw [getD_map_range _ _ hi, getD_map_range _ _ hj]

theorem entry2_interpGridY (ps : List (ℚ × ℚ)) (sx sy : ℚ) {i j : ℕ}
    (hi : i < nStepsY ps sy + 1) (hj : j < nStepsX ps sx + 1) :
    entry2 (interpGridY ps sx sy) i j = gridYVal ps sy i := by
  unfold entry2 interpGridY
  rw [getD_map_range _ _ hi, getD_map_range _ _ hj]

/-- On the modelled grid the inclusion tolerance is `sx² + sy²`. -/
theorem pointSpacing2_full (ps : List (ℚ × ℚ)) (sx sy : ℚ)
    (hnx : 1 ≤ nStepsX ps sx) (hny : 1 ≤ nStepsY ps sy) :
    pointSpacing2 (interpGridX ps sx sy) (interpGridY ps sx sy) =
      sx ^ 2 + sy ^ 2 := by
  unfold pointSpacing2
  rw [entry2_interpGridX ps sx sy (by omega) (by omega),
    entry2_interpGridX ps sx sy (by omega) (by omega),
    entry2_interpGridY ps sx sy (by omega) (by omega),
    entry2_interpGridY ps sx sy (by omega) (by omega)]
  unfold gridXVal gridYVal
  push_cast
  ring

/-- Every scan position is strictly within one grid cell of some grid
point of the covering grid. -/
theorem exists_close_grid_point (ps : List (ℚ × ℚ)) (sx sy : ℚ)
    (hsx : 0 < sx) (hsy : 0 < sy) (p : ℚ × ℚ) (hp : p ∈ ps) :
    ∃ i j, i < nStepsY ps sy + 1 ∧ j < nStepsX ps sx + 1 ∧
      sqDist p (npMin (xCoords ps) + j * sx, npMax (yCoords ps) - i * sy) <
        sx ^ 2 + sy ^ 2 := by
  have hx1 : npMin (xCoords ps) ≤ p.1 :=
    npMin_le (List.mem_map.mpr ⟨p, hp, rfl⟩)
  have hx2 : p.1 ≤ npMax (xCoords ps) :=
    le_npMax (List.mem_map.mpr ⟨p, hp, rfl⟩)
  have hy1 : npMin (yCoords ps) ≤ p.2 :=
    npMin_le (List.mem_map.mpr ⟨p, hp, rfl⟩)
  have hy2 : p.2 ≤ npMax (yCoords ps) :=
    le_npMax (List.mem_map.mpr ⟨p, hp, rfl⟩)
  have ht0 : 0 ≤ (p.1 - npMin (xCoords ps)) / sx :=
    div_nonneg (sub_nonneg.mpr hx1) hsx.le
  have hu0 : 0 ≤ (npMax (yCoords ps) - p.2) / sy :=
    div_nonneg (sub_nonneg.mpr hy2) hsy.le
  refine ⟨⌊(npMax (yCoords ps) - p.2) / sy⌋₊, ⌊(p.1 - npMin (xCoords ps)) / sx⌋₊,
    ?_, ?_, ?_⟩
  · have h1 : (npMax (yCoords ps) - p.2) / sy ≤
        (npMax (yCoords ps) - npMin (yCoords ps)) / sy := by
      apply div_le_div_of_nonneg_right ?_ hsy.le
      linarith
    calc ⌊(npMax (yCoords ps) - p.2) / sy⌋₊
        ≤ ⌈(npMax (yCoords ps) - p.2) / sy⌉₊ := Nat.floor_le_ceil _
      _ ≤ nStepsY ps sy := Nat.ceil_le_ceil h1
      _ < nStepsY ps sy + 1 := Nat.lt_succ_self _
  · have h1 : (p.1 - npMin (xCoords ps)) / sx ≤
        (npMax (xCoords ps) - npMin (xCoords ps)) / sx := by
      apply div_le_div_of_nonneg_right ?_ hsx.le
      linarith
    calc ⌊(p.1 - npMin (xCoords ps)) / sx⌋₊
        ≤ ⌈(p.1 - npMin (xCoords ps)) / sx⌉₊ := Nat.floor_le_ceil _
      _ ≤ nStepsX ps sx := Nat.ceil_le_ceil h1
      _ < nStepsX ps sx + 1 := Nat.lt_succ_self _
  · have hxlow : (⌊(p.1 - npMin (xCoords ps)) / sx⌋₊ : ℚ) * sx ≤
        p.1 - npMin (xCoords ps) := by
      have hfl : (⌊(p.1 - npMin (xCoords ps)) / sx⌋₊ : ℚ) ≤
          (p.1 - npMin (xCoords ps)) / sx := Nat.floor_le ht0
      have := mul_le_mul_of_nonneg_right hfl hsx.le
      rwa [div_mul_cancel₀ _ (ne_of_gt hsx)] at this
    have hxhigh : p.1 - npMin (xCoords ps) <
        ((⌊(p.1 - npMin (xCoords ps)) / sx⌋₊ : ℚ) + 1) * sx := by
      have hfl : (p.1 - npMin (xCoords ps)) / sx <
          (⌊(p.1 - npMin (xCoords ps)) / sx⌋₊ : ℚ) + 1 :=
        Nat.lt_floor_add_one _
      have := mul_lt_mul_of_pos_right hfl hsx
      rwa [div_mul_cancel₀ _ (ne_of_gt hsx)] at this
    have hylow : (⌊(npMax (yCoords ps) - p.2) / sy⌋₊ : ℚ) * sy ≤
        npMax (yCoords ps) - p.2 := by
      have hfl : (⌊(npMax (yCoords ps) - p.2) / sy⌋₊ : ℚ) ≤
          (npMax (yCoords ps) - p.2) / sy := Nat.floor_le hu0
      have := mul_le_mul_of_nonneg_right hfl hsy.le
      rwa [div_mul_cancel₀ _ (ne_of_gt hsy)] at this
    have hyhigh : npMax (yCoords ps) - p.2 <
        ((⌊(npMax (yCoords ps) - p.2) / sy⌋₊ : ℚ) + 1) * sy := by
      have hfl : (npMax (yCoords ps) - p.2) / sy <
          (⌊(npMax (yCoords ps) - p.2) / sy⌋₊ : ℚ) + 1 :=
        Nat.lt_floor_add_one _
      have := mul_lt_mul_of_pos_right hfl hsy
      rwa [div_mul_cancel₀ _ (ne_of_gt hsy)] at this
    unfold sqDist
    apply add_lt_add
    · exact sq_lt_sq' (by nlinarith) (by nlinarith)
    · exact sq_lt_sq' (by nlinarith) (by nlinarith)

/-- C7: on a grid interpolated from the positions (any positive spacing,
non-degenerate extent in both axes), the inverse lookup with an all-true
selection mask returns every position index `0 … nPositions−1`. -/
theorem positionsInMask_fullMask (ps : List (ℚ × ℚ)) (sx sy : ℚ)
    (hsx : 0 < sx) (hsy : 0 < sy)
    (hx : npMin (xCoords ps) < npMax (xCoords ps))
    (hy : npMin (yCoords ps) < npMax (yCoords ps)) :
    positionsInMask ps (interpGridX ps sx sy) (interpGridY ps sx sy)
      (fullMask ps sx sy) = List.range ps.length := by
  have hnx : 1 ≤ nStepsX ps sx :=
    Nat.one_le_ceil_iff.mpr (div_pos (sub_pos.mpr hx) hsx)
  have hny : 1 ≤ nStepsY ps sy :=
    Nat.one_le_ceil_iff.mpr (div_pos (sub_pos.mpr hy) hsy)
  unfold positionsInMask
  apply List.filter_eq_self.mpr
  intro i hi
  have hi2 : i < ps.length := List.mem_range.mp hi
  have hp : ps.getD i (0, 0) ∈ ps := getD_mem_of_lt (0, 0) hi2
  obtain ⟨r, c, hr, hc, hlt⟩ :=
    exists_close_grid_point ps sx sy hsx hsy (ps.getD i (0, 0)) hp
  have hq := mem_maskedPoints_full ps sx sy hr hc
  rw [decide_eq_true_eq, minDist2_lt_iff (List.ne_nil_of_mem hq),
    pointSpacing2_full ps sx sy hnx hny]
  exact ⟨_, hq, hlt⟩

/-- C7 witness: two positions spanning a unit square, unit spacings. -/
theorem positionsInMask_fullMask_witness :
    positionsInMask [((0 : ℚ), (0 : ℚ)), (1, 1)]
      (interpGridX [((0 : ℚ), (0 : ℚ)), (1, 1)] 1 1)
      (interpGridY [((0 : ℚ), (0 : ℚ)), (1, 1)] 1 1)
      (fullMask [((0 : ℚ), (0 : ℚ)), (1, 1)] 1 1) = List.range 2 :=
  positionsInMask_fullMask [((0 : ℚ), (0 : ℚ)), (1, 1)] 1 1
    (by norm_num) (by norm_num)
    (by norm_num [xCoords, npMin, npMax, min_def, max_def])
    (by norm_num [yCoords, npMin, npMax, min_def, max_def])
